import Mathlib

/-!
Verification of the chunk/distribute/reassemble engine of the UpdateCase
repository (Go).  The Go sources are shallowly embedded: byte sequences are
`List Nat`, Go `int`/`int64` are `Int` (with Go's truncated division `Int.tdiv`
and remainder `Int.tmod`), fallible functions return `GoResult`, and runtime
panics (integer division by zero, negative-length `make`) are the explicit
`GoResult.panicked` outcome.
-/

namespace UpdateCase

/-- The typed error values returned by the embedded functions; each
constructor corresponds to one `fmt.Errorf` site in the Go source. -/
inductive GoErr where
  /-- "нет кусков для сборки файла" (ReconstructFile on an empty slice). -/
  | noChunks
  /-- "отсутствует кусок с индексом i" (ReconstructFile index gap). -/
  | missingChunk (index : Nat)
  /-- "не удалось прочитать кусок i" (ChunkFile io.ReadFull failure). -/
  | readChunkFailed (index : Nat)
  /-- "количество кусков не соответствует заявленному" (ValidateFileMetadata). -/
  | chunkCountMismatch
  /-- "неправильный индекс куска: ожидался i, получен got" (ValidateFileMetadata). -/
  | chunkIndexMismatch (expected : Nat) (got : Int)
  /-- "идентификатор файла в куске i не соответствует метаданным" (ValidateFileMetadata). -/
  | chunkFileIDMismatch (index : Nat)
  /-- "общий размер кусков не соответствует размеру файла" (ValidateFileMetadata). -/
  | totalSizeMismatch
  /-- "кусок не найден" (MemoryStorage.GetChunk / DeleteChunk). -/
  | chunkNotFound
  /-- "не удалось сохранить кусок i на сервере ..." (distributeChunks). -/
  | storeFailed (chunkIndex : Nat)
  deriving Repr, DecidableEq

/-- Outcome of a Go function call: a normal value, a returned `error`, or a
runtime panic (e.g. integer division by zero or a negative-length `make`). -/
inductive GoResult (α : Type) where
  | ok (val : α)
  | goError (e : GoErr)
  | panicked
  deriving Repr, DecidableEq

end UpdateCase

namespace UpdateCase

/-- Model of the hex-encoded SHA-256 digest obtained from Go's `crypto/sha256`
standard library (an external dependency, not part of this repository): an
injective encoding of the input byte sequence into a string.  No claim in this
development depends on any property of the digest other than it being a pure
function of the data. -/
def sha256Hex (data : List Nat) : String :=
  toString data

/-- `FileChunk` from pkg/chunking: one piece of a file. -/
structure FileChunk where
  ID : String
  Index : Int
  FileID : String
  Size : Int
  Checksum : String
  Data : List Nat
  deriving Repr, DecidableEq, Inhabited

/-- `FileMetadata` from pkg/chunking: per-file metadata. -/
structure FileMetadata where
  ID : String
  OriginalName : String
  Size : Int
  Checksum : String
  ChunkCount : Int
  Chunks : List FileChunk
  ContentType : String
  deriving Repr, DecidableEq, Inhabited

/-- The per-chunk read/build loop of `ChunkFile` (pkg/chunking).  `remaining`
is the unread tail of the file; `io.ReadFull` fails when fewer than
`currentChunkSize` bytes remain, which the loop surfaces as the
"не удалось прочитать кусок i" error. -/
def chunkFileLoop (fileID : String) (chunkSize remainder : Int) (chunkCount : Nat)
    (i : Nat) (remaining : List Nat) : GoResult (List FileChunk) :=
  if _h : i < chunkCount then
    -- последний кусок получает остаток
    let currentChunkSize : Int := if i = chunkCount - 1 then chunkSize + remainder else chunkSize
    if (remaining.length : Int) < currentChunkSize then
      .goError (.readChunkFailed i)
    else
      let chunkData := remaining.take currentChunkSize.toNat
      let chunk : FileChunk :=
        { ID := fileID ++ "_chunk_" ++ toString i
          Index := (i : Int)
          FileID := fileID
          Size := currentChunkSize
          Checksum := sha256Hex chunkData
          Data := chunkData }
      match chunkFileLoop fileID chunkSize remainder chunkCount (i + 1)
          (remaining.drop currentChunkSize.toNat) with
      | .ok rest => .ok (chunk :: rest)
      | .goError e => .goError e
      | .panicked => .panicked
  else
    .ok []
  termination_by chunkCount - i

/-- `ChunkFile` (pkg/chunking): splits a file into `chunkCount` pieces.  The
disk file is modelled by its content `data` and base name `fileName`.  For
`chunkCount = 0` the statement `chunkSize := fileSize / int64(chunkCount)`
panics with an integer division by zero; for `chunkCount < 0` the allocation
`make([]FileChunk, chunkCount)` panics on the negative length. -/
def chunkFile (data : List Nat) (fileName : String) (chunkCount : Int)
    (fileID : String) : GoResult FileMetadata :=
  let fileSize : Int := data.length
  if chunkCount = 0 then .panicked
  else
    let chunkSize := fileSize.tdiv chunkCount
    let remainder := fileSize.tmod chunkCount
    let fileChecksum := sha256Hex data
    if chunkCount < 0 then .panicked
    else
      match chunkFileLoop fileID chunkSize remainder chunkCount.toNat 0 data with
      | .ok chunks =>
          .ok { ID := fileID
                OriginalName := fileName
                Size := fileSize
                Checksum := fileChecksum
                ChunkCount := chunkCount
                Chunks := chunks
                ContentType := "" }
      | .goError e => .goError e
      | .panicked => .panicked

/-- The slicing loop of `chunkFileInMemory` (cmd/api/main.go): chunk `i` is
`data[start:end]` with `start = i*chunkSize` and `end = start + chunkSize`,
except that the last chunk extends to `fileSize`. -/
def chunkInMemLoop (data : List Nat) (fileID : String) (chunkSize : Int)
    (chunkCount : Nat) (i : Nat) : List FileChunk :=
  if _h : i < chunkCount then
    let start : Int := (i : Int) * chunkSize
    let endPos : Int := if i = chunkCount - 1 then (data.length : Int) else start + chunkSize
    let chunkData := (data.take endPos.toNat).drop start.toNat
    { ID := fileID ++ "_chunk_" ++ toString i
      FileID := fileID
      Index := (i : Int)
      Data := chunkData
      Checksum := sha256Hex chunkData
      Size := (chunkData.length : Int) }
    :: chunkInMemLoop data fileID chunkSize chunkCount (i + 1)
  else
    []
  termination_by chunkCount - i

/-- `chunkFileInMemory` (cmd/api/main.go): the coordinator's in-memory split.
For `chunkCount = 0` the statement `chunkSize := fileSize / chunkCount`
panics with an integer division by zero; for `chunkCount < 0` the allocation
`make([]chunking.FileChunk, chunkCount)` panics on the negative length. -/
def chunkFileInMemory (data : List Nat) (fileID : String) (chunkCount : Int) :
    GoResult (List FileChunk) :=
  let fileSize : Int := data.length
  if chunkCount = 0 then .panicked
  else
    let chunkSize := fileSize.tdiv chunkCount
    if chunkCount < 0 then .panicked
    else
      .ok (chunkInMemLoop data fileID chunkSize chunkCount.toNat 0)

/-- Canonical description of chunk `i` produced by splitting `data` into `k`
chunks (used to state what both split implementations compute): the chunk
payload is `csize` bytes starting at offset `i * (len / k)`, where `csize` is
`len / k` for every chunk but the last, which also receives `len % k`. -/
def chunkSpec (data : List Nat) (fileID : String) (k i : Nat) : FileChunk :=
  let cs := data.length / k
  let csize := if i = k - 1 then cs + data.length % k else cs
  let chunkData := (data.drop (i * cs)).take csize
  { ID := fileID ++ "_chunk_" ++ toString i
    Index := (i : Int)
    FileID := fileID
    Size := (csize : Int)
    Checksum := sha256Hex chunkData
    Data := chunkData }

/-- One pass of the nested compare-and-swap loop in `ReconstructFile`
(`for j := i+1; ...; if chunks[i].Index > chunks[j].Index { swap }`): the
state is the current occupant `x` of position `i` together with the suffix
still to be scanned; the result is the final occupant of position `i` and the
suffix it leaves behind. -/
def selectMin (x : FileChunk) : List FileChunk → FileChunk × List FileChunk
  | [] => (x, [])
  | y :: t =>
      if x.Index > y.Index then
        let p := selectMin y t
        (p.1, x :: p.2)
      else
        let p := selectMin x t
        (p.1, y :: p.2)

theorem selectMin_snd_length (x : FileChunk) (t : List FileChunk) :
    (selectMin x t).2.length = t.length := by
  induction t generalizing x with
  | nil => rfl
  | cons y t ih =>
      by_cases h : x.Index > y.Index <;>
        simp [selectMin, h, ih]

/-- The index-sorting double loop of `ReconstructFile` (pkg/chunking),
structurally recursive on the number of outer-loop iterations left (the outer
loop runs exactly once per position): position `i` is fixed by the inner
compare-and-swap pass (`selectMin`) before moving on to the remainder. -/
def sortChunksGo : Nat → List FileChunk → List FileChunk
  | _, [] => []
  | 0, x :: t => x :: t
  | n + 1, x :: t =>
      let p := selectMin x t
      p.1 :: sortChunksGo n p.2

/-- The sort performed by `ReconstructFile`: one outer-loop iteration per
element of the list. -/
def sortChunks (l : List FileChunk) : List FileChunk :=
  sortChunksGo l.length l

theorem sortChunks_nil : sortChunks [] = [] := rfl

theorem sortChunksGo_congr : ∀ n₁ n₂ l, l.length ≤ n₁ → l.length ≤ n₂ →
    sortChunksGo n₁ l = sortChunksGo n₂ l := by
  intro n₁
  induction n₁ with
  | zero =>
      intro n₂ l h1 _
      have : l = [] := List.length_eq_zero.1 (Nat.le_zero.1 h1)
      subst this
      cases n₂ <;> rfl
  | succ n ih =>
      intro n₂ l h1 h2
      match l with
      | [] => cases n₂ <;> rfl
      | x :: t =>
          match n₂, h2 with
          | 0, h2 => simp at h2
          | m + 1, h2 =>
              show (selectMin x t).1 :: sortChunksGo n (selectMin x t).2 =
                (selectMin x t).1 :: sortChunksGo m (selectMin x t).2
              congr 1
              refine ih m _ ?_ ?_ <;> rw [selectMin_snd_length] <;>
                simp only [List.length_cons] at h1 h2 <;> omega

theorem sortChunks_cons (x : FileChunk) (t : List FileChunk) :
    sortChunks (x :: t) = (selectMin x t).1 :: sortChunks (selectMin x t).2 := by
  show (selectMin x t).1 :: sortChunksGo t.length (selectMin x t).2 =
    (selectMin x t).1 :: sortChunksGo (selectMin x t).2.length (selectMin x t).2
  congr 1
  exact sortChunksGo_congr t.length (selectMin x t).2.length _
    (by rw [selectMin_snd_length]) le_rfl

/-- The gap check of `ReconstructFile`: scanning the sorted chunks from
position `i`, returns the first position whose chunk's `Index` differs from
it (the reported "missing" index), or `none` when every position matches. -/
def checkChunkIndices : List FileChunk → Nat → Option Nat
  | [], _ => none
  | c :: rest, i =>
      if c.Index ≠ (i : Int) then some i else checkChunkIndices rest (i + 1)

/-- `ReconstructFile` (pkg/chunking): sorts the chunks by index, requires
`chunks[i].Index == i` for every position, and writes the payloads in order.
The returned byte sequence models the content written to the output file. -/
def reconstructFile (chunks : List FileChunk) : GoResult (List Nat) :=
  if chunks.isEmpty then .goError .noChunks
  else
    let sorted := sortChunks chunks
    match checkChunkIndices sorted 0 with
    | some i => .goError (.missingChunk i)
    | none => .ok (sorted.foldl (fun acc c => acc ++ c.Data) [])

/-- Two's-complement wraparound of Go's `int64`: the value of an `int64`
addition whose mathematical result is `x`. -/
def wrap64 (x : Int) : Int :=
  (x + 2 ^ 63) % 2 ^ 64 - 2 ^ 63

/-- The chunk-size total computed by `ValidateFileMetadata`'s loop
(`var totalSize int64; totalSize += chunk.Size`): each addition wraps in
`int64` arithmetic. -/
def int64Sum (chunks : List FileChunk) : Int :=
  chunks.foldl (fun acc c => wrap64 (acc + c.Size)) 0

/-- The per-chunk loop of `ValidateFileMetadata`: checks each chunk's index
and file id and accumulates the total size in Go's wrapping `int64`
arithmetic (`totalSize += chunk.Size` on an `int64`). -/
def validateChunksLoop (fileID : String) : List FileChunk → Nat → Int → GoResult Int
  | [], _, totalSize => .ok totalSize
  | c :: rest, i, totalSize =>
      if c.Index ≠ (i : Int) then .goError (.chunkIndexMismatch i c.Index)
      else if c.FileID ≠ fileID then .goError (.chunkFileIDMismatch i)
      else validateChunksLoop fileID rest (i + 1) (wrap64 (totalSize + c.Size))

/-- `ValidateFileMetadata` (pkg/chunking): checks the chunk count, every
chunk's index and file id, and the total size; it never reads the `Checksum`
fields. -/
def validateFileMetadata (m : FileMetadata) : GoResult Unit :=
  if (m.Chunks.length : Int) ≠ m.ChunkCount then .goError .chunkCountMismatch
  else
    match validateChunksLoop m.ID m.Chunks 0 0 with
    | .goError e => .goError e
    | .panicked => .panicked
    | .ok totalSize =>
        if totalSize ≠ m.Size then .goError .totalSizeMismatch else .ok ()

/-- `reconstructFileInMemory` (cmd/api/main.go): appends the chunks' payloads
in list order; the pre-computed total size only sizes the allocation.  No
sorting, no index/checksum/size verification, no failure path. -/
def reconstructFileInMemory (chunks : List FileChunk) : GoResult (List Nat) :=
  .ok (chunks.foldl (fun acc c => acc ++ c.Data) [])

/-- A node's in-memory chunk map (`MemoryStorage.chunks`), modelled as an
association list keyed by chunk id (`StoreChunk` overwrites, so keys are kept
unique by construction of the operations). -/
abbrev MemStore : Type := List (String × FileChunk)

/-- `MemoryStorage.DeleteChunk` (pkg/storage/memory_storage.go): returns the
"кусок не найден" error when the id is absent, otherwise removes the entry. -/
def memoryDeleteChunk (chunks : MemStore) (chunkID : String) : GoResult MemStore :=
  match List.lookup chunkID chunks with
  | none => .goError .chunkNotFound
  | some _ => .ok (List.filter (fun p => p.1 != chunkID) chunks)

/-- The storage server's `DELETE /chunks/{id}` handler `deleteChunk`
(cmd/api/main.go): any error from `MemoryStorage.DeleteChunk` — including the
not-found error — is answered with status 500; success with status 200.  The
result is the HTTP status code and the store after the request. -/
def deleteChunkHandler (chunks : MemStore) (chunkID : String) : Nat × MemStore :=
  match memoryDeleteChunk chunks chunkID with
  | .ok updated => (200, updated)
  | _ => (500, chunks)

/-- The error-collecting fan-out loop of `distributeChunks`: chunk `i` goes to
server `i % nodeCount`, and `storeResult s c` abstracts the outcome of the
network call `client.StoreChunk(&c)` against server `s` (`true` = the client
returned no error).  Returns the first failing chunk index, or `none` when
every store succeeded — the goroutine schedule only permutes the order in
which errors reach `errChan`, so an error is returned exactly when some store
failed. -/
def distributeLoop (storeResult : Nat → FileChunk → Bool) (nodeCount : Nat) :
    Nat → List FileChunk → Option Nat
  | _, [] => none
  | i, c :: rest =>
      if storeResult (i % nodeCount) c then distributeLoop storeResult nodeCount (i + 1) rest
      else some i

/-- `distributeChunks` (cmd/api/main.go): concurrent fan-out with a join
barrier; fails iff any per-chunk store failed.  With no storage clients the
goroutines panic on `chunkIndex % len(s.storageClients)`. -/
def distributeChunks (storeResult : Nat → FileChunk → Bool) (nodeCount : Nat)
    (chunks : List FileChunk) : GoResult Unit :=
  if nodeCount = 0 ∧ chunks ≠ [] then .panicked
  else
    match distributeLoop storeResult nodeCount 0 chunks with
    | some i => .goError (.storeFailed i)
    | none => .ok ()

/-- Overwriting insert into the coordinator's metadata map
(`s.fileMetadata[fileID] = metadata`), on the association-list model. -/
def mapInsert {α : Type} (m : List (String × α)) (key : String) (v : α) :
    List (String × α) :=
  List.filter (fun p => p.1 != key) m ++ [(key, v)]

/-- `calculateChecksum` (cmd/api/main.go): SHA-256 over the whole data. -/
def calculateChecksum (data : List Nat) : String :=
  sha256Hex data

/-- The core of the `POST /files` handler `streamingUploadFile`
(cmd/api/main.go), entered after the multipart file has been read into
`fileData` and the uuid `fileID` generated: the oversize check answers 400;
`chunkFileInMemory` and `distributeChunks` failures answer 500 without
touching the metadata map; only after distribution succeeds is the metadata
registered, and 200 returned.  The result pairs the HTTP status with the
metadata map after the request. -/
def streamingUploadFile (storeResult : Nat → FileChunk → Bool) (nodeCount : Nat)
    (maxFileSize chunkCount : Int) (fileMetadata : List (String × FileMetadata))
    (fileData : List Nat) (fileName contentType fileID : String) :
    GoResult (Nat × List (String × FileMetadata)) :=
  if (fileData.length : Int) > maxFileSize then .ok (400, fileMetadata)
  else
    match chunkFileInMemory fileData fileID chunkCount with
    | .panicked => .panicked
    | .goError _ => .ok (500, fileMetadata)
    | .ok chunks =>
        let metadata : FileMetadata :=
          { ID := fileID
            OriginalName := fileName
            Size := (fileData.length : Int)
            Checksum := calculateChecksum fileData
            ContentType := contentType
            ChunkCount := (chunks.length : Int)
            Chunks := chunks }
        match distributeChunks storeResult nodeCount chunks with
        | .panicked => .panicked
        | .goError _ => .ok (500, fileMetadata)
        | .ok _ => .ok (200, mapInsert fileMetadata fileID metadata)

theorem selectMin_perm (x : FileChunk) (t : List FileChunk) :
    List.Perm ((selectMin x t).1 :: (selectMin x t).2) (x :: t) := by
  induction t generalizing x with
  | nil => simp [selectMin]
  | cons y t ih =>
      by_cases h : x.Index > y.Index
      · simp only [selectMin, if_pos h]
        exact (List.Perm.swap x (selectMin y t).1 (selectMin y t).2).trans
          (List.Perm.cons x (ih y))
      · simp only [selectMin, if_neg h]
        exact ((List.Perm.swap y (selectMin x t).1 (selectMin x t).2).trans
          (List.Perm.cons y (ih x))).trans (List.Perm.swap x y t)

theorem selectMin_fst_le (x : FileChunk) (t : List FileChunk) :
    ∀ c ∈ x :: t, (selectMin x t).1.Index ≤ c.Index := by
  induction t generalizing x with
  | nil =>
      intro c hc
      simp only [List.mem_singleton] at hc
      subst hc; simp [selectMin]
  | cons y t ih =>
      intro c hc
      by_cases h : x.Index > y.Index
      · simp only [selectMin, if_pos h]
        rcases List.mem_cons.1 hc with rfl | hc
        · exact le_trans (ih y y (List.mem_cons_self y t)) (le_of_lt h)
        · exact ih y c hc
      · simp only [selectMin, if_neg h]
        rcases List.mem_cons.1 hc with rfl | hc
        · exact ih c c (List.mem_cons_self c t)
        · rcases List.mem_cons.1 hc with rfl | hc
          · exact le_trans (ih x x (List.mem_cons_self x t)) (le_of_not_lt h)
          · exact ih x c (List.mem_cons.2 (Or.inr hc))

theorem selectMin_eq_of_lt (x : FileChunk) (t : List FileChunk)
    (hx : ∀ c ∈ t, x.Index < c.Index) : selectMin x t = (x, t) := by
  induction t with
  | nil => rfl
  | cons y t ih =>
      have hxy : ¬ x.Index > y.Index :=
        not_lt.2 (le_of_lt (hx y (List.mem_cons_self y t)))
      simp only [selectMin, if_neg hxy]
      rw [ih (fun c hc => hx c (List.mem_cons.2 (Or.inr hc)))]

theorem sortChunks_perm_aux (n : Nat) :
    ∀ l : List FileChunk, l.length ≤ n → List.Perm (sortChunks l) l := by
  induction n with
  | zero =>
      intro l hl
      have : l = [] := List.length_eq_zero.1 (Nat.le_zero.1 hl)
      subst this; simp [sortChunks_nil]
  | succ n ih =>
      intro l hl
      match l with
      | [] => simp [sortChunks_nil]
      | x :: t =>
          rw [sortChunks_cons]
          have hlen : (selectMin x t).2.length ≤ n := by
            rw [selectMin_snd_length]
            simp only [List.length_cons] at hl
            omega
          exact (List.Perm.cons _ (ih _ hlen)).trans (selectMin_perm x t)

theorem sortChunks_perm (l : List FileChunk) : List.Perm (sortChunks l) l :=
  sortChunks_perm_aux l.length l le_rfl

theorem sortChunks_sorted_aux (n : Nat) :
    ∀ l : List FileChunk, l.length ≤ n →
      List.Sorted (fun a b : FileChunk => a.Index ≤ b.Index) (sortChunks l) := by
  induction n with
  | zero =>
      intro l hl
      have : l = [] := List.length_eq_zero.1 (Nat.le_zero.1 hl)
      subst this; simp [sortChunks_nil]
  | succ n ih =>
      intro l hl
      match l with
      | [] => simp [sortChunks_nil]
      | x :: t =>
          rw [sortChunks_cons]
          have hlen : (selectMin x t).2.length ≤ n := by
            rw [selectMin_snd_length]
            simp only [List.length_cons] at hl
            omega
          refine List.sorted_cons.2 ⟨?_, ih _ hlen⟩
          intro b hb
          have hb2 : b ∈ (selectMin x t).2 :=
            ((sortChunks_perm_aux n _ hlen).mem_iff).1 hb
          have hb3 : b ∈ x :: t :=
            (selectMin_perm x t).mem_iff.1 (List.mem_cons.2 (Or.inr hb2))
          exact selectMin_fst_le x t b hb3

theorem sortChunks_sorted (l : List FileChunk) :
    List.Sorted (fun a b : FileChunk => a.Index ≤ b.Index) (sortChunks l) :=
  sortChunks_sorted_aux l.length l le_rfl

theorem sortChunks_eq_of_pairwise (l : List FileChunk)
    (hl : List.Pairwise (fun a b : FileChunk => a.Index < b.Index) l) :
    sortChunks l = l := by
  induction l with
  | nil => simp [sortChunks_nil]
  | cons x t ih =>
      rw [sortChunks_cons]
      rcases List.pairwise_cons.1 hl with ⟨hx, ht⟩
      rw [selectMin_eq_of_lt x t hx]
      exact congrArg (x :: ·) (ih ht)

/-! ### The gap check of `ReconstructFile` -/

theorem checkChunkIndices_none_iff (l : List FileChunk) :
    ∀ j, checkChunkIndices l j = none ↔
      ∀ i (h : i < l.length), (l.get ⟨i, h⟩).Index = ((j + i : Nat) : Int) := by
  induction l with
  | nil => intro j; simp [checkChunkIndices]
  | cons c rest ih =>
      intro j
      by_cases hc : c.Index = (j : Int)
      · rw [checkChunkIndices, if_neg (by simpa using hc)]
        rw [ih (j + 1)]
        constructor
        · intro h i hi
          match i with
          | 0 => simpa using hc
          | i + 1 =>
              have := h i (by simpa using Nat.lt_of_succ_lt_succ hi)
              simpa [Nat.add_assoc, Nat.add_comm 1 i] using this
        · intro h i hi
          have := h (i + 1) (by simpa using Nat.succ_lt_succ hi)
          simpa [Nat.add_assoc, Nat.add_comm 1 i] using this
      · rw [checkChunkIndices, if_pos (by simpa using hc)]
        constructor
        · intro h; simp at h
        · intro h
          exact (hc (by simpa using h 0 (by simp))).elim

/-! ### What the two split implementations compute -/

theorem chunkFileLoop_terminal (fileID : String) (a b : Int) (k : Nat)
    (remaining : List Nat) : chunkFileLoop fileID a b k k remaining = .ok [] := by
  rw [chunkFileLoop]
  simp

theorem chunkFileLoop_eq (data : List Nat) (fileID : String) (k : Nat) (hk : 0 < k) :
    ∀ m i, i + m = k →
      chunkFileLoop fileID ((data.length / k : Nat) : Int) ((data.length % k : Nat) : Int)
          k i (data.drop (i * (data.length / k))) =
        .ok ((List.range' i m).map (chunkSpec data fileID k)) := by
  intro m
  induction m with
  | zero =>
      intro i hi
      have hik : i = k := by omega
      rw [hik, chunkFileLoop_terminal]
      simp
  | succ m ih =>
      intro i hi
      have hik : i < k := by omega
      have hdm : k * (data.length / k) + data.length % k = data.length :=
        Nat.div_add_mod data.length k
      rw [chunkFileLoop, dif_pos hik]
      by_cases hl : i = k - 1
      · have hm0 : m = 0 := by omega
        subst hm0
        have hone : i * (data.length / k) + data.length / k = k * (data.length / k) := by
          have hsk : i + 1 = k := by omega
          calc i * (data.length / k) + data.length / k
              = (i + 1) * (data.length / k) := by ring
            _ = k * (data.length / k) := by rw [hsk]
        have hlen : (data.drop (i * (data.length / k))).length =
            data.length / k + data.length % k := by
          rw [List.length_drop]
          refine Nat.sub_eq_of_eq_add ?_
          calc data.length = k * (data.length / k) + data.length % k := hdm.symm
            _ = i * (data.length / k) + data.length / k + data.length % k := by rw [hone]
            _ = data.length / k + data.length % k + i * (data.length / k) := by ring
        have hguard : ¬ (((data.drop (i * (data.length / k))).length : Int) <
            ((data.length / k : Nat) : Int) + ((data.length % k : Nat) : Int)) := by
          rw [hlen]; push_cast; omega
        have htn : (((data.length / k : Nat) : Int) +
            ((data.length % k : Nat) : Int)).toNat = data.length / k + data.length % k := by
          omega
        rw [if_pos hl, if_neg hguard, htn]
        have hsk : i + 1 = k := by omega
        rw [hsk, chunkFileLoop_terminal]
        simp only [Nat.zero_add, List.range'_one, List.map_cons, List.map_nil]
        simp only [chunkSpec, if_pos hl]
        push_cast
        rfl
      · have hmul : i * (data.length / k) + data.length / k ≤ data.length := by
          have h1 : i * (data.length / k) + data.length / k
              = (i + 1) * (data.length / k) := by ring
          have h2 : (i + 1) * (data.length / k) ≤ k * (data.length / k) :=
            Nat.mul_le_mul_right _ (by omega)
          have h3 : k * (data.length / k) ≤ data.length := Nat.le.intro hdm
          omega
        have hle : data.length / k ≤ (data.drop (i * (data.length / k))).length := by
          rw [List.length_drop]
          exact Nat.le_sub_of_add_le (by rw [Nat.add_comm]; exact hmul)
        have hguard : ¬ (((data.drop (i * (data.length / k))).length : Int) <
            ((data.length / k : Nat) : Int)) := by
          exact_mod_cast not_lt.2 hle
        have htn : (((data.length / k : Nat) : Int)).toNat = data.length / k :=
          Int.toNat_ofNat _
        rw [if_neg hl, if_neg hguard, htn]
        have hdrop : (data.drop (i * (data.length / k))).drop (data.length / k) =
            data.drop ((i + 1) * (data.length / k)) := by
          rw [List.drop_drop]
          congr 1
          ring
        rw [hdrop, ih (i + 1) (by omega)]
        rw [List.range'_succ]
        simp only [List.map_cons]
        simp only [chunkSpec, if_neg hl]

theorem chunkInMemLoop_terminal (data : List Nat) (fileID : String) (a : Int)
    (k : Nat) : chunkInMemLoop data fileID a k k = [] := by
  rw [chunkInMemLoop]
  simp

theorem chunkInMemLoop_eq (data : List Nat) (fileID : String) (k : Nat) (hk : 0 < k) :
    ∀ m i, i + m = k →
      chunkInMemLoop data fileID ((data.length / k : Nat) : Int) k i =
        (List.range' i m).map (chunkSpec data fileID k) := by
  intro m
  induction m with
  | zero =>
      intro i hi
      have hik : i = k := by omega
      rw [hik, chunkInMemLoop_terminal]
      simp
  | succ m ih =>
      intro i hi
      have hik : i < k := by omega
      have hdm : k * (data.length / k) + data.length % k = data.length :=
        Nat.div_add_mod data.length k
      have hstart : (((i : Int)) * ((data.length / k : Nat) : Int)).toNat =
          i * (data.length / k) := by
        have hc : ((i : Int)) * ((data.length / k : Nat) : Int) =
            ((i * (data.length / k) : Nat) : Int) := by push_cast; ring
        rw [hc, Int.toNat_ofNat]
      rw [chunkInMemLoop, dif_pos hik]
      simp only []
      by_cases hl : i = k - 1
      · have hm0 : m = 0 := by omega
        subst hm0
        have hone : i * (data.length / k) + data.length / k = k * (data.length / k) := by
          have hsk : i + 1 = k := by omega
          calc i * (data.length / k) + data.length / k
              = (i + 1) * (data.length / k) := by ring
            _ = k * (data.length / k) := by rw [hsk]
        have hlen : (data.drop (i * (data.length / k))).length =
            data.length / k + data.length % k := by
          rw [List.length_drop]
          refine Nat.sub_eq_of_eq_add ?_
          calc data.length = k * (data.length / k) + data.length % k := hdm.symm
            _ = i * (data.length / k) + data.length / k + data.length % k := by rw [hone]
            _ = data.length / k + data.length % k + i * (data.length / k) := by ring
        have hdata : (data.drop (i * (data.length / k))).take
            (data.length / k + data.length % k) = data.drop (i * (data.length / k)) := by
          refine List.take_of_length_le ?_
          rw [hlen]
        rw [if_pos hl, hstart]
        have hend : ((data.length : Nat) : Int).toNat = data.length := Int.toNat_ofNat _
        rw [hend, List.take_length]
        have hsk : i + 1 = k := by omega
        rw [hsk, chunkInMemLoop_terminal]
        simp only [Nat.zero_add, List.range'_one, List.map_cons, List.map_nil]
        simp only [chunkSpec, if_pos hl]
        rw [hdata, hlen]
      · have hmul : i * (data.length / k) + data.length / k ≤ data.length := by
          have h1 : i * (data.length / k) + data.length / k
              = (i + 1) * (data.length / k) := by ring
          have h2 : (i + 1) * (data.length / k) ≤ k * (data.length / k) :=
            Nat.mul_le_mul_right _ (by omega)
          have h3 : k * (data.length / k) ≤ data.length := Nat.le.intro hdm
          omega
        have hle : data.length / k ≤ (data.drop (i * (data.length / k))).length := by
          rw [List.length_drop]
          exact Nat.le_sub_of_add_le (by rw [Nat.add_comm]; exact hmul)
        rw [if_neg hl, hstart]
        have hend : (((i : Int)) * ((data.length / k : Nat) : Int) +
            ((data.length / k : Nat) : Int)).toNat
            = i * (data.length / k) + data.length / k := by
          have hc : ((i : Int)) * ((data.length / k : Nat) : Int) +
              ((data.length / k : Nat) : Int) =
              ((i * (data.length / k) + data.length / k : Nat) : Int) := by push_cast; ring
          rw [hc, Int.toNat_ofNat]
        rw [hend]
        have hslice : (data.take (i * (data.length / k) + data.length / k)).drop
            (i * (data.length / k)) =
            (data.drop (i * (data.length / k))).take (data.length / k) := by
          rw [List.drop_take]
          congr 1
          rw [Nat.add_sub_cancel_left]
        rw [hslice]
        have hlen3 : ((data.drop (i * (data.length / k))).take (data.length / k)).length =
            data.length / k := by
          rw [List.length_take]
          exact Nat.min_eq_left hle
        rw [ih (i + 1) (by omega), List.range'_succ]
        simp only [List.map_cons]
        simp only [chunkSpec, if_neg hl]
        rw [hlen3]

theorem natCast_tdiv (a b : Nat) : ((a : Int)).tdiv ((b : Int)) = ((a / b : Nat) : Int) := rfl

theorem natCast_tmod (a b : Nat) : ((a : Int)).tmod ((b : Int)) = ((a % b : Nat) : Int) := rfl

theorem chunkFile_eq (data : List Nat) (fileName fileID : String) (K : Int) (hK : 0 < K) :
    chunkFile data fileName K fileID =
      .ok { ID := fileID
            OriginalName := fileName
            Size := (data.length : Int)
            Checksum := sha256Hex data
            ChunkCount := K
            Chunks := (List.range K.toNat).map (chunkSpec data fileID K.toNat)
            ContentType := "" } := by
  obtain ⟨k, rfl⟩ : ∃ k : Nat, K = (k : Int) := ⟨K.toNat, (Int.toNat_of_nonneg hK.le).symm⟩
  have hk : 0 < k := by exact_mod_cast hK
  have h0 : ¬ ((k : Int) = 0) := by exact_mod_cast hk.ne'
  have hneg : ¬ ((k : Int) < 0) := by omega
  rw [chunkFile, if_neg h0, if_neg hneg]
  simp only [natCast_tdiv, natCast_tmod, Int.toNat_ofNat]
  have hloop := chunkFileLoop_eq data fileID k hk k 0 (by omega)
  simp only [Nat.zero_mul, List.drop_zero] at hloop
  rw [hloop, List.range_eq_range']

theorem chunkFileInMemory_eq (data : List Nat) (fileID : String) (K : Int) (hK : 0 < K) :
    chunkFileInMemory data fileID K =
      .ok ((List.range K.toNat).map (chunkSpec data fileID K.toNat)) := by
  obtain ⟨k, rfl⟩ : ∃ k : Nat, K = (k : Int) := ⟨K.toNat, (Int.toNat_of_nonneg hK.le).symm⟩
  have hk : 0 < k := by exact_mod_cast hK
  have h0 : ¬ ((k : Int) = 0) := by exact_mod_cast hk.ne'
  have hneg : ¬ ((k : Int) < 0) := by omega
  rw [chunkFileInMemory, if_neg h0, if_neg hneg]
  simp only [natCast_tdiv, Int.toNat_ofNat]
  rw [chunkInMemLoop_eq data fileID k hk k 0 (by omega), List.range_eq_range']

/-! ### Payload and size facts about the produced chunks -/

theorem chunk_offset_le (data : List Nat) (k i : Nat) (hik : i < k) :
    i * (data.length / k) + data.length / k ≤ data.length := by
  have hdm : k * (data.length / k) + data.length % k = data.length :=
    Nat.div_add_mod data.length k
  have h1 : i * (data.length / k) + data.length / k = (i + 1) * (data.length / k) := by ring
  have h2 : (i + 1) * (data.length / k) ≤ k * (data.length / k) :=
    Nat.mul_le_mul_right _ (by omega)
  have h3 : k * (data.length / k) ≤ data.length := Nat.le.intro hdm
  omega

theorem lastChunk_len (data : List Nat) (k i : Nat) (hk : 0 < k) (hl : i = k - 1) :
    (data.drop (i * (data.length / k))).length = data.length / k + data.length % k := by
  have hdm : k * (data.length / k) + data.length % k = data.length :=
    Nat.div_add_mod data.length k
  have hone : i * (data.length / k) + data.length / k = k * (data.length / k) := by
    have hsk : i + 1 = k := by omega
    calc i * (data.length / k) + data.length / k
        = (i + 1) * (data.length / k) := by ring
      _ = k * (data.length / k) := by rw [hsk]
  rw [List.length_drop]
  refine Nat.sub_eq_of_eq_add ?_
  calc data.length = k * (data.length / k) + data.length % k := hdm.symm
    _ = i * (data.length / k) + data.length / k + data.length % k := by rw [hone]
    _ = data.length / k + data.length % k + i * (data.length / k) := by ring

theorem chunkSpec_data_last (data : List Nat) (fileID : String) (k i : Nat)
    (hk : 0 < k) (hl : i = k - 1) :
    (chunkSpec data fileID k i).Data = data.drop (i * (data.length / k)) := by
  simp only [chunkSpec, if_pos hl]
  refine List.take_of_length_le ?_
  rw [lastChunk_len data k i hk hl]

theorem chunkSpec_data_mid (data : List Nat) (fileID : String) (k i : Nat)
    (hl : i ≠ k - 1) :
    (chunkSpec data fileID k i).Data =
      (data.drop (i * (data.length / k))).take (data.length / k) := by
  simp only [chunkSpec, if_neg hl]

theorem chunkSpec_len (data : List Nat) (fileID : String) (k i : Nat)
    (hk : 0 < k) (hik : i < k) :
    (chunkSpec data fileID k i).Data.length =
      (if i = k - 1 then data.length / k + data.length % k else data.length / k) := by
  by_cases hl : i = k - 1
  · rw [if_pos hl, chunkSpec_data_last data fileID k i hk hl, lastChunk_len data k i hk hl]
  · rw [if_neg hl, chunkSpec_data_mid data fileID k i hl, List.length_take, List.length_drop]
    have := chunk_offset_le data k i hik
    omega

theorem chunkSpec_size (data : List Nat) (fileID : String) (k i : Nat) :
    (chunkSpec data fileID k i).Size =
      (((if i = k - 1 then data.length / k + data.length % k else data.length / k) : Nat) : Int) := by
  by_cases hl : i = k - 1 <;> simp [chunkSpec, hl]

theorem chunkSpec_size_eq_len (data : List Nat) (fileID : String) (k i : Nat)
    (hk : 0 < k) (hik : i < k) :
    (chunkSpec data fileID k i).Size = ((chunkSpec data fileID k i).Data.length : Int) := by
  rw [chunkSpec_size, chunkSpec_len data fileID k i hk hik]

theorem foldl_append_data (l : List FileChunk) :
    ∀ acc : List Nat,
      l.foldl (fun a c => a ++ c.Data) acc = acc ++ (l.map (fun c => c.Data)).flatten := by
  induction l with
  | nil => simp
  | cons c t ih => intro acc; simp [ih, List.append_assoc]

theorem chunkSpec_data_flatten_aux (data : List Nat) (fileID : String) (k : Nat)
    (hk : 0 < k) :
    ∀ m i, i + m = k → 0 < m →
      (((List.range' i m).map (chunkSpec data fileID k)).map (fun c => c.Data)).flatten =
        data.drop (i * (data.length / k)) := by
  intro m
  induction m with
  | zero => intro i _ h0; exact absurd h0 (lt_irrefl 0)
  | succ m ih =>
      intro i hi _
      rcases Nat.eq_zero_or_pos m with hm0 | hmpos
      · subst hm0
        have hl : i = k - 1 := by omega
        simp only [Nat.zero_add, List.range'_one, List.map_cons, List.map_nil,
          List.flatten_cons, List.flatten_nil, List.append_nil]
        exact chunkSpec_data_last data fileID k i hk hl
      · have hl : i ≠ k - 1 := by omega
        rw [List.range'_succ]
        simp only [List.map_cons, List.flatten_cons]
        rw [ih (i + 1) (by omega) hmpos, chunkSpec_data_mid data fileID k i hl]
        have hdrop : data.drop ((i + 1) * (data.length / k)) =
            (data.drop (i * (data.length / k))).drop (data.length / k) := by
          rw [List.drop_drop]
          congr 1
          ring
        rw [hdrop, List.take_append_drop]

theorem chunkSpec_data_flatten (data : List Nat) (fileID : String) (k : Nat)
    (hk : 0 < k) :
    (((List.range k).map (chunkSpec data fileID k)).map (fun c => c.Data)).flatten = data := by
  rw [List.range_eq_range']
  have := chunkSpec_data_flatten_aux data fileID k hk k 0 (by omega) hk
  simpa using this

theorem sizes_sum_of_size_eq_len (l : List FileChunk)
    (h : ∀ c ∈ l, c.Size = (c.Data.length : Int)) :
    (l.map (fun c => c.Size)).sum = (((l.map (fun c => c.Data)).flatten).length : Int) := by
  induction l with
  | nil => simp
  | cons c t ih =>
      simp only [List.map_cons, List.sum_cons, List.flatten_cons, List.length_append]
      rw [h c (List.mem_cons_self c t), ih (fun d hd => h d (List.mem_cons.2 (Or.inr hd)))]
      push_cast
      ring

theorem chunkSpec_sizes_sum (data : List Nat) (fileID : String) (k : Nat) (hk : 0 < k) :
    (((List.range k).map (chunkSpec data fileID k)).map (fun c => c.Size)).sum =
      (data.length : Int) := by
  rw [sizes_sum_of_size_eq_len, chunkSpec_data_flatten data fileID k hk]
  intro c hc
  rcases List.mem_map.1 hc with ⟨i, hi, rfl⟩
  exact chunkSpec_size_eq_len data fileID k i hk (List.mem_range.1 hi)

theorem checkChunkIndices_some (l : List FileChunk) :
    ∀ j, checkChunkIndices l j ≠ none →
      ∃ k, ∃ h : k < l.length,
        checkChunkIndices l j = some (j + k) ∧
        (l.get ⟨k, h⟩).Index ≠ ((j + k : Nat) : Int) ∧
        ∀ m (hm : m < k), (l.get ⟨m, Nat.lt_trans hm h⟩).Index = ((j + m : Nat) : Int) := by
  induction l with
  | nil => intro j h; simp [checkChunkIndices] at h
  | cons c rest ih =>
      intro j hne
      by_cases hc : c.Index = (j : Int)
      · rw [checkChunkIndices, if_neg (by simpa using hc)] at hne ⊢
        rcases ih (j + 1) hne with ⟨k, hk, heq, hbad, hgood⟩
        refine ⟨k + 1, by simpa using Nat.succ_lt_succ hk, ?_, ?_, ?_⟩
        · rw [heq]; congr 1; omega
        · have : j + (k + 1) = j + 1 + k := by omega
          rw [this]; simpa using hbad
        · intro m hm
          match m with
          | 0 => simpa using hc
          | m + 1 =>
              have := hgood m (Nat.lt_of_succ_lt_succ hm)
              have harith : j + (m + 1) = j + 1 + m := by omega
              rw [harith]; simpa using this
      · refine ⟨0, by simp, ?_, ?_, ?_⟩
        · rw [checkChunkIndices, if_pos (by simpa using hc)]; simp
        · simpa using hc
        · intro m hm; omega


/-! ### Reconstruction of the split output -/

theorem chunkSpec_pairwise (data : List Nat) (fileID : String) (k : Nat) :
    List.Pairwise (fun a b : FileChunk => a.Index < b.Index)
      ((List.range k).map (chunkSpec data fileID k)) := by
  refine List.pairwise_map.2 ?_
  refine (List.pairwise_lt_range k).imp ?_
  intro a b h
  simpa [chunkSpec] using Int.ofNat_lt.2 h

theorem chunkSpec_get_index (data : List Nat) (fileID : String) (k i : Nat)
    (h : i < ((List.range k).map (chunkSpec data fileID k)).length) :
    (((List.range k).map (chunkSpec data fileID k)).get ⟨i, h⟩).Index = (i : Int) := by
  simp [List.get_eq_getElem, chunkSpec]

theorem reconstructFile_chunkSpec (data : List Nat) (fileID : String) (k : Nat)
    (hk : 0 < k) :
    reconstructFile ((List.range k).map (chunkSpec data fileID k)) = .ok data := by
  have hne : ¬ (((List.range k).map (chunkSpec data fileID k)).isEmpty = true) := by
    simp [List.isEmpty_iff, ← List.length_eq_zero]
    omega
  have hsort : sortChunks ((List.range k).map (chunkSpec data fileID k)) =
      (List.range k).map (chunkSpec data fileID k) :=
    sortChunks_eq_of_pairwise _ (chunkSpec_pairwise data fileID k)
  have hchk : checkChunkIndices ((List.range k).map (chunkSpec data fileID k)) 0 = none := by
    refine (checkChunkIndices_none_iff _ 0).2 ?_
    intro i h
    simpa using chunkSpec_get_index data fileID k i h
  rw [reconstructFile, if_neg hne]
  simp only [hsort, hchk]
  rw [foldl_append_data, List.nil_append, chunkSpec_data_flatten data fileID k hk]


/-! ### Metadata validation -/

theorem validateChunksLoop_ok (fileID : String) (l : List FileChunk) :
    ∀ j acc,
      (∀ i (h : i < l.length), (l.get ⟨i, h⟩).Index = ((j + i : Nat) : Int) ∧
        (l.get ⟨i, h⟩).FileID = fileID) →
      validateChunksLoop fileID l j acc =
        .ok (l.foldl (fun a c => wrap64 (a + c.Size)) acc) := by
  induction l with
  | nil => intro j acc _; simp [validateChunksLoop]
  | cons c rest ih =>
      intro j acc h
      have h0 := h 0 (by simp)
      simp only [List.get_eq_getElem, List.getElem_cons_zero, Nat.add_zero] at h0
      rw [validateChunksLoop, if_neg (by simpa using h0.1), if_neg (by simpa using h0.2)]
      rw [List.foldl_cons]
      refine ih (j + 1) (wrap64 (acc + c.Size)) ?_
      intro i hi
      have := h (i + 1) (by simpa using Nat.succ_lt_succ hi)
      simp only [List.get_eq_getElem, List.getElem_cons_succ] at this
      have harith : j + (i + 1) = j + 1 + i := by omega
      rw [harith] at this
      exact this

theorem validateChunksLoop_err (fileID : String) (l : List FileChunk) :
    ∀ j acc,
      ¬ (∀ i (h : i < l.length), (l.get ⟨i, h⟩).Index = ((j + i : Nat) : Int) ∧
        (l.get ⟨i, h⟩).FileID = fileID) →
      ∃ e, validateChunksLoop fileID l j acc = .goError e := by
  induction l with
  | nil => intro j acc h; exact absurd (by intro i hi; simp at hi) h
  | cons c rest ih =>
      intro j acc h
      by_cases h1 : c.Index = ((j : Nat) : Int)
      · by_cases h2 : c.FileID = fileID
        · rw [validateChunksLoop, if_neg (by simpa using h1), if_neg (by simpa using h2)]
          refine ih (j + 1) (wrap64 (acc + c.Size)) ?_
          intro hall
          refine h ?_
          intro i hi
          match i with
          | 0 => simpa using ⟨h1, h2⟩
          | i + 1 =>
              have := hall i (by simpa using Nat.lt_of_succ_lt_succ hi)
              simp only [List.get_eq_getElem, List.getElem_cons_succ]
              have harith : j + (i + 1) = j + 1 + i := by omega
              rw [harith]
              exact this
        · exact ⟨_, by rw [validateChunksLoop, if_neg (by simpa using h1), if_pos (by simpa using h2)]⟩
      · exact ⟨_, by rw [validateChunksLoop, if_pos (by simpa using h1)]⟩

/-! ### Distribution and upload -/

theorem distributeLoop_none_iff (storeResult : Nat → FileChunk → Bool) (nodeCount : Nat)
    (l : List FileChunk) :
    ∀ j, distributeLoop storeResult nodeCount j l = none ↔
      ∀ i (h : i < l.length), storeResult ((j + i) % nodeCount) (l.get ⟨i, h⟩) = true := by
  induction l with
  | nil => intro j; simp [distributeLoop]
  | cons c rest ih =>
      intro j
      by_cases hs : storeResult (j % nodeCount) c = true
      · rw [distributeLoop, if_pos hs, ih (j + 1)]
        constructor
        · intro h i hi
          match i with
          | 0 => simpa using hs
          | i + 1 =>
              have := h i (by simpa using Nat.lt_of_succ_lt_succ hi)
              have harith : j + (i + 1) = j + 1 + i := by omega
              rw [harith]
              simpa using this
        · intro h i hi
          have := h (i + 1) (by simpa using Nat.succ_lt_succ hi)
          have harith : j + (i + 1) = j + 1 + i := by omega
          rw [harith] at this
          simpa using this
      · rw [distributeLoop, if_neg hs]
        constructor
        · intro h; simp at h
        · intro h
          exact absurd (by simpa using h 0 (by simp)) hs

theorem distributeChunks_ok_iff (storeResult : Nat → FileChunk → Bool) (nodeCount : Nat)
    (hn : 0 < nodeCount) (chunks : List FileChunk) :
    (distributeChunks storeResult nodeCount chunks = .ok () ↔
      ∀ i (h : i < chunks.length), storeResult (i % nodeCount) (chunks.get ⟨i, h⟩) = true) ∧
    (¬ (∀ i (h : i < chunks.length), storeResult (i % nodeCount) (chunks.get ⟨i, h⟩) = true) →
      ∃ e, distributeChunks storeResult nodeCount chunks = .goError e) := by
  have hguard : ¬ (nodeCount = 0 ∧ chunks ≠ []) := by
    intro hc
    omega
  have hiff := distributeLoop_none_iff storeResult nodeCount chunks 0
  simp only [Nat.zero_add] at hiff
  rw [distributeChunks, if_neg hguard]
  constructor
  · constructor
    · intro h
      rcases hloop : distributeLoop storeResult nodeCount 0 chunks with _ | i
      · exact hiff.1 hloop
      · rw [hloop] at h
        simp at h
    · intro h
      rw [hiff.2 h]
  · intro h
    rcases hloop : distributeLoop storeResult nodeCount 0 chunks with _ | i
    · exact absurd (hiff.1 hloop) h
    · exact ⟨_, rfl⟩


/-! ## Claim theorems -/

/-- C1: for every byte sequence and every chunk count K > 0, reconstructing
the chunks produced by `ChunkFile` writes a byte sequence identical to the
original: the split/reconstruct round trip is the identity. -/
theorem C1_roundtrip (data : List Nat) (fileName fileID : String) (K : Int)
    (hK : 0 < K) :
    ∃ md, chunkFile data fileName K fileID = .ok md ∧
      reconstructFile md.Chunks = .ok data := by
  refine ⟨_, chunkFile_eq data fileName fileID K hK, ?_⟩
  exact reconstructFile_chunkSpec data fileID K.toNat (by omega)

theorem C1_roundtrip_witness :
    ∃ md, chunkFile [7, 8, 9] "f.txt" 2 "fid" = .ok md ∧
      reconstructFile md.Chunks = .ok [7, 8, 9] :=
  C1_roundtrip [7, 8, 9] "f.txt" "fid" 2 (by decide)

/-- C2 counterexample: with chunkCount = 0 both split implementations panic
(integer division by zero) — neither returns an error value as the claim
states. -/
theorem C2_counterexample :
    chunkFile [1, 2] "f.txt" 0 "fid" = .panicked ∧
    chunkFileInMemory [1, 2] "fid" 0 = .panicked ∧
    (∀ e, chunkFile [1, 2] "f.txt" 0 "fid" ≠ .goError e) ∧
    (∀ e, chunkFileInMemory [1, 2] "fid" 0 ≠ .goError e) := by
  refine ⟨rfl, rfl, ?_, ?_⟩ <;> intro e h <;> simp [chunkFile, chunkFileInMemory] at h

/-- C2 (amended): for every input and every chunkCount ≤ 0, both the
disk-based and the in-memory split panic (integer division by zero at
chunkCount = 0, negative-length make below it); neither returns an
InvalidArgument error value. -/
theorem C2_amended_panics (data : List Nat) (fileName fileID uploadID : String)
    (K : Int) (hK : K ≤ 0) :
    chunkFile data fileName K fileID = .panicked ∧
    chunkFileInMemory data uploadID K = .panicked := by
  by_cases h0 : K = 0
  · subst h0
    constructor <;> rfl
  · have hneg : K < 0 := by omega
    constructor
    · rw [chunkFile, if_neg h0, if_pos hneg]
    · rw [chunkFileInMemory, if_neg h0, if_pos hneg]

theorem C2_amended_panics_witness :
    chunkFile [5] "f.txt" (-3) "fid" = .panicked ∧
    chunkFileInMemory [5] "fid" (-3) = .panicked :=
  C2_amended_panics [5] "f.txt" "fid" "fid" (-3) (by decide)

/-- C3: for K > 0, every chunk at a position other than the last receives
exactly ⌊len(D)/K⌋ bytes, the last chunk receives ⌊len(D)/K⌋ + (len(D) mod K)
bytes, and the sizes sum to len(D) — in the disk-based and the in-memory
split alike. -/
theorem C3_chunk_sizes (data : List Nat) (fileName fileID : String) (K : Int)
    (hK : 0 < K) :
    ∃ md, chunkFile data fileName K fileID = .ok md ∧
      chunkFileInMemory data fileID K = .ok md.Chunks ∧
      md.Chunks.length = K.toNat ∧
      (∀ i (h : i < md.Chunks.length),
        (md.Chunks.get ⟨i, h⟩).Size =
          (if i = K.toNat - 1
            then ((data.length / K.toNat + data.length % K.toNat : Nat) : Int)
            else ((data.length / K.toNat : Nat) : Int))) ∧
      (md.Chunks.map (fun c => c.Size)).sum = (data.length : Int) := by
  refine ⟨_, chunkFile_eq data fileName fileID K hK,
    chunkFileInMemory_eq data fileID K hK, by simp, ?_, ?_⟩
  · intro i h
    simp only [List.get_eq_getElem, List.getElem_map, List.getElem_range]
    rw [chunkSpec_size, apply_ite (Nat.cast : Nat → Int)]
  · exact chunkSpec_sizes_sum data fileID K.toNat (by omega)

theorem C3_chunk_sizes_witness :
    ∃ md, chunkFile [1, 2, 3, 4, 5] "f.txt" 2 "fid" = .ok md ∧
      chunkFileInMemory [1, 2, 3, 4, 5] "fid" 2 = .ok md.Chunks ∧
      md.Chunks.length = (2 : Int).toNat ∧
      (∀ i (h : i < md.Chunks.length),
        (md.Chunks.get ⟨i, h⟩).Size =
          (if i = (2 : Int).toNat - 1
            then ((([1, 2, 3, 4, 5] : List Nat).length / (2 : Int).toNat +
              ([1, 2, 3, 4, 5] : List Nat).length % (2 : Int).toNat : Nat) : Int)
            else ((([1, 2, 3, 4, 5] : List Nat).length / (2 : Int).toNat : Nat) : Int))) ∧
      (md.Chunks.map (fun c => c.Size)).sum = (([1, 2, 3, 4, 5] : List Nat).length : Int) :=
  C3_chunk_sizes [1, 2, 3, 4, 5] "f.txt" "fid" 2 (by decide)

/-- C4 counterexample: on the empty chunk list the per-position index
condition holds vacuously, yet `ReconstructFile` fails with the no-chunks
error instead of succeeding; and on a list with duplicate index 0 the
reported "missing" index 1 is in fact present in the list. -/
theorem C4_counterexample :
    reconstructFile [] = .goError .noChunks ∧
    reconstructFile [] ≠ .ok [] ∧
    reconstructFile
        [{ ID := "a", Index := 0, FileID := "f", Size := 1, Checksum := "", Data := [1] },
         { ID := "b", Index := 0, FileID := "f", Size := 1, Checksum := "", Data := [2] },
         { ID := "c", Index := 1, FileID := "f", Size := 1, Checksum := "", Data := [3] }] =
      .goError (.missingChunk 1) ∧
    (∃ c ∈ ([{ ID := "a", Index := 0, FileID := "f", Size := 1, Checksum := "", Data := [1] },
         { ID := "b", Index := 0, FileID := "f", Size := 1, Checksum := "", Data := [2] },
         { ID := "c", Index := 1, FileID := "f", Size := 1, Checksum := "", Data := [3] }] :
         List FileChunk), c.Index = (1 : Int)) := by
  refine ⟨by decide, by decide, by decide, ?_⟩
  exact ⟨{ ID := "c", Index := 1, FileID := "f", Size := 1, Checksum := "", Data := [3] },
    by simp, rfl⟩

/-- C4 (amended): `ReconstructFile` sorts the chunks by index (the result is
an index-sorted permutation of the input).  On a nonempty list it succeeds,
writing the payloads in sorted order, exactly when after sorting every
position i holds a chunk of index i; otherwise it fails with the
missing-chunk error naming the first position whose sorted chunk index
differs from it.  The empty list fails with the distinct no-chunks error. -/
theorem C4_amended_reconstruct (chunks : List FileChunk) :
    List.Perm (sortChunks chunks) chunks ∧
    List.Sorted (fun a b : FileChunk => a.Index ≤ b.Index) (sortChunks chunks) ∧
    (chunks = [] → reconstructFile chunks = .goError .noChunks) ∧
    (chunks ≠ [] →
      (∀ i (h : i < (sortChunks chunks).length),
          ((sortChunks chunks).get ⟨i, h⟩).Index = (i : Int)) →
        reconstructFile chunks =
          .ok (((sortChunks chunks).map (fun c => c.Data)).flatten)) ∧
    (chunks ≠ [] →
      ¬ (∀ i (h : i < (sortChunks chunks).length),
          ((sortChunks chunks).get ⟨i, h⟩).Index = (i : Int)) →
        ∃ p, ∃ hp : p < (sortChunks chunks).length,
          reconstructFile chunks = .goError (.missingChunk p) ∧
          ((sortChunks chunks).get ⟨p, hp⟩).Index ≠ (p : Int) ∧
          ∀ m (hm : m < p),
            ((sortChunks chunks).get ⟨m, Nat.lt_trans hm hp⟩).Index = (m : Int)) := by
  refine ⟨sortChunks_perm chunks, sortChunks_sorted chunks, ?_, ?_, ?_⟩
  · intro h; subst h; rfl
  · intro hne hall
    have hempty : ¬ (chunks.isEmpty = true) := by
      simpa [List.isEmpty_iff] using hne
    have hchk : checkChunkIndices (sortChunks chunks) 0 = none := by
      refine (checkChunkIndices_none_iff _ 0).2 ?_
      intro i h
      simpa using hall i h
    rw [reconstructFile, if_neg hempty]
    simp only [hchk]
    rw [foldl_append_data, List.nil_append]
  · intro hne hnall
    have hempty : ¬ (chunks.isEmpty = true) := by
      simpa [List.isEmpty_iff] using hne
    have hchk : checkChunkIndices (sortChunks chunks) 0 ≠ none := by
      intro hnone
      refine hnall ?_
      intro i h
      simpa using (checkChunkIndices_none_iff _ 0).1 hnone i h
    rcases checkChunkIndices_some (sortChunks chunks) 0 hchk with ⟨p, hp, heq, hbad, hgood⟩
    rw [Nat.zero_add] at heq
    refine ⟨p, hp, ?_, by simpa using hbad, ?_⟩
    · rw [reconstructFile, if_neg hempty]
      simp only [heq]
    · intro m hm
      simpa using hgood m hm

theorem C4_amended_reconstruct_witness :
    reconstructFile
        [{ ID := "y", Index := 1, FileID := "f", Size := 1, Checksum := "", Data := [6] },
         { ID := "x", Index := 0, FileID := "f", Size := 1, Checksum := "", Data := [5] }] =
      .ok [5, 6] := by
  have h := (C4_amended_reconstruct
    [{ ID := "y", Index := 1, FileID := "f", Size := 1, Checksum := "", Data := [6] },
     { ID := "x", Index := 0, FileID := "f", Size := 1, Checksum := "", Data := [5] }]).2.2.2.1
    (by decide) (by decide)
  simpa using h


/-- C5: after a size-admissible upload request, the coordinator registers the
file metadata exactly when every per-chunk store succeeded: success answers
200 and inserts the metadata under the file id, while any failed store makes
the whole upload answer 500 and leaves the metadata map unchanged. -/
theorem C5_upload_registers_iff (storeResult : Nat → FileChunk → Bool)
    (nodeCount : Nat) (maxFileSize chunkCount : Int)
    (st : List (String × FileMetadata)) (fileData : List Nat)
    (fileName contentType fileID : String)
    (hn : 0 < nodeCount) (hk : 0 < chunkCount)
    (hsz : (fileData.length : Int) ≤ maxFileSize) :
    ∃ chunks metadata,
      chunkFileInMemory fileData fileID chunkCount = .ok chunks ∧
      ((∀ i (h : i < chunks.length),
          storeResult (i % nodeCount) (chunks.get ⟨i, h⟩) = true) →
        streamingUploadFile storeResult nodeCount maxFileSize chunkCount st fileData
            fileName contentType fileID = .ok (200, mapInsert st fileID metadata)) ∧
      ((¬ ∀ i (h : i < chunks.length),
          storeResult (i % nodeCount) (chunks.get ⟨i, h⟩) = true) →
        streamingUploadFile storeResult nodeCount maxFileSize chunkCount st fileData
            fileName contentType fileID = .ok (500, st)) := by
  have hmem := chunkFileInMemory_eq fileData fileID chunkCount hk
  refine ⟨(List.range chunkCount.toNat).map (chunkSpec fileData fileID chunkCount.toNat),
    { ID := fileID
      OriginalName := fileName
      Size := (fileData.length : Int)
      Checksum := calculateChecksum fileData
      ContentType := contentType
      ChunkCount := (((List.range chunkCount.toNat).map
        (chunkSpec fileData fileID chunkCount.toNat)).length : Int)
      Chunks := (List.range chunkCount.toNat).map (chunkSpec fileData fileID chunkCount.toNat) },
    hmem, ?_, ?_⟩
  · intro hall
    have hdist := (distributeChunks_ok_iff storeResult nodeCount hn _).1.2 hall
    rw [streamingUploadFile, if_neg (not_lt.2 hsz)]
    simp only [hmem, hdist]
  · intro hnall
    rcases (distributeChunks_ok_iff storeResult nodeCount hn _).2 hnall with ⟨e, hdist⟩
    rw [streamingUploadFile, if_neg (not_lt.2 hsz)]
    simp only [hmem, hdist]

theorem C5_upload_registers_iff_witness :
    ∃ chunks metadata,
      chunkFileInMemory [1, 2, 3] "fid" 2 = .ok chunks ∧
      ((∀ i (h : i < chunks.length),
          (fun _ _ => true) (i % 3) (chunks.get ⟨i, h⟩) = true) →
        streamingUploadFile (fun _ _ => true) 3 100 2 [] [1, 2, 3]
            "n.txt" "text" "fid" = .ok (200, mapInsert [] "fid" metadata)) ∧
      ((¬ ∀ i (h : i < chunks.length),
          (fun _ _ => true) (i % 3) (chunks.get ⟨i, h⟩) = true) →
        streamingUploadFile (fun _ _ => true) 3 100 2 [] [1, 2, 3]
            "n.txt" "text" "fid" = .ok (500, [])) :=
  C5_upload_registers_iff (fun _ _ => true) 3 100 2 [] [1, 2, 3] "n.txt" "text" "fid"
    (by decide) (by decide) (by decide)

/-- C6: contrary to the claimed 200/404 contract, the storage server's
`DELETE /chunks/{id}` handler answers 500 when the chunk id is absent — the
handler maps every `MemoryStorage.DeleteChunk` error, including the
not-found error, to StatusInternalServerError — and 200 when the chunk
exists and is removed. -/
theorem C6_deleteChunk_missing_gives_500 :
    (deleteChunkHandler [] "c1").1 = 500 ∧
    memoryDeleteChunk [] "c1" = .goError .chunkNotFound ∧
    deleteChunkHandler
        [("c1", { ID := "c1", Index := 0, FileID := "f", Size := 0, Checksum := "", Data := [] })]
        "c1" = (200, []) := by
  refine ⟨rfl, rfl, by decide⟩

/-- A chunk whose declared `Size` is 2^62 (the `Size` field is not tied to
the payload, so such metadata is freely constructible by a caller). -/
def wrapChunk (i : Nat) : FileChunk :=
  { ID := "f_chunk_" ++ toString i, Index := (i : Int), FileID := "f",
    Size := 2 ^ 62, Checksum := "", Data := [] }

/-- Metadata exercising the `int64` wraparound of `ValidateFileMetadata`'s
size accumulation: two chunks of `Size` 2^62 against `Size = -2^63`. -/
def wrapMetadata : FileMetadata :=
  { ID := "f", OriginalName := "n", Size := -(2 ^ 63), Checksum := "",
    ChunkCount := 2, Chunks := [wrapChunk 0, wrapChunk 1], ContentType := "" }

/-- C7 counterexample: `ValidateFileMetadata` accumulates the chunk sizes in
Go's wrapping `int64`, so metadata whose chunk sizes mathematically sum to
2^63 but whose `Size` field is -2^63 validates — contradicting the claimed
"fails iff … the chunk sizes do not sum to the metadata size". -/
theorem C7_counterexample :
    validateFileMetadata wrapMetadata = .ok () ∧
    (wrapMetadata.Chunks.map (fun c => c.Size)).sum ≠ wrapMetadata.Size := by
  constructor
  · decide
  · decide

/-- C7 (amended): `ValidateFileMetadata` fails exactly when the chunk count,
a chunk index, a chunk file id, or the size total — accumulated in Go's
wrapping `int64` arithmetic — is inconsistent with the metadata; it never
reads any checksum field, so metadata whose checksum disagrees with the
chunk data still validates. -/
theorem C7_validateFileMetadata_char (m : FileMetadata) :
    ((∃ e, validateFileMetadata m = .goError e) ↔
      ((m.Chunks.length : Int) ≠ m.ChunkCount ∨
       (∃ i, ∃ h : i < m.Chunks.length, (m.Chunks.get ⟨i, h⟩).Index ≠ (i : Int)) ∨
       (∃ i, ∃ h : i < m.Chunks.length, (m.Chunks.get ⟨i, h⟩).FileID ≠ m.ID) ∨
       int64Sum m.Chunks ≠ m.Size)) ∧
    (∀ c, validateFileMetadata { m with Checksum := c } = validateFileMetadata m) := by
  constructor
  · by_cases hcount : (m.Chunks.length : Int) = m.ChunkCount
    · by_cases hP : ∀ i (h : i < m.Chunks.length),
          (m.Chunks.get ⟨i, h⟩).Index = ((0 + i : Nat) : Int) ∧
          (m.Chunks.get ⟨i, h⟩).FileID = m.ID
      · have hloop : validateChunksLoop m.ID m.Chunks 0 0 = .ok (int64Sum m.Chunks) :=
          validateChunksLoop_ok m.ID m.Chunks 0 0 hP
        by_cases hsum : int64Sum m.Chunks = m.Size
        · rw [validateFileMetadata, if_neg (not_not_intro hcount)]
          simp only [hloop, if_neg (not_not_intro hsum)]
          constructor
          · rintro ⟨e, he⟩
            exact GoResult.noConfusion he
          · rintro (h | ⟨i, hi, hbad⟩ | ⟨i, hi, hbad⟩ | h)
            · exact (h hcount).elim
            · exact (hbad (by simpa using (hP i hi).1)).elim
            · exact (hbad ((hP i hi).2)).elim
            · exact (h hsum).elim
        · rw [validateFileMetadata, if_neg (not_not_intro hcount)]
          simp only [hloop, if_pos hsum]
          constructor
          · intro _
            right; right; right
            exact hsum
          · intro _
            exact ⟨_, rfl⟩
      · rcases validateChunksLoop_err m.ID m.Chunks 0 0 hP with ⟨e, he⟩
        rw [validateFileMetadata, if_neg (not_not_intro hcount)]
        simp only [he]
        constructor
        · intro _
          rcases not_forall.1 hP with ⟨i, hni⟩
          rcases not_forall.1 hni with ⟨hi, hcond⟩
          rcases not_and_or.1 hcond with hA | hB
          · right; left
            exact ⟨i, hi, by simpa using hA⟩
          · right; right; left
            exact ⟨i, hi, hB⟩
        · intro _
          exact ⟨e, rfl⟩
    · rw [validateFileMetadata, if_pos hcount]
      constructor
      · intro _
        left
        exact hcount
      · intro _
        exact ⟨_, rfl⟩
  · intro c
    rfl

def sampleChunk : FileChunk :=

  { ID := "f_chunk_0", Index := 0, FileID := "f", Size := 1, Checksum := "x", Data := [7] }

def sampleMetadata : FileMetadata :=
  { ID := "f", OriginalName := "n", Size := 1, Checksum := "good", ChunkCount := 1,
    Chunks := [sampleChunk], ContentType := "" }

theorem C7_validateFileMetadata_char_witness :
    validateFileMetadata { sampleMetadata with Checksum := "junk" } =
      validateFileMetadata sampleMetadata :=
  (C7_validateFileMetadata_char sampleMetadata).2 "junk"

/-- C8: when the chunk count exceeds the data length, both split
implementations still succeed, produce exactly K chunks, at least one chunk
has an empty payload, and the payloads still concatenate to the input. -/
theorem C8_degenerate_split (data : List Nat) (fileName fileID : String) (K : Int)
    (hK : (data.length : Int) < K) :
    ∃ md, chunkFile data fileName K fileID = .ok md ∧
      chunkFileInMemory data fileID K = .ok md.Chunks ∧
      md.Chunks.length = K.toNat ∧
      (∃ i, ∃ h : i < md.Chunks.length, (md.Chunks.get ⟨i, h⟩).Data = []) ∧
      (md.Chunks.map (fun c => c.Data)).flatten = data := by
  have hK0 : 0 < K := by omega
  have hlen : data.length < K.toNat := by omega
  refine ⟨_, chunkFile_eq data fileName fileID K hK0,
    chunkFileInMemory_eq data fileID K hK0, by simp, ?_,
    chunkSpec_data_flatten data fileID K.toNat (by omega)⟩
  refine ⟨0, by simp only [List.length_map, List.length_range]; omega, ?_⟩
  simp only [List.get_eq_getElem, List.getElem_map, List.getElem_range]
  have hcs : data.length / K.toNat = 0 := Nat.div_eq_of_lt hlen
  by_cases h1 : (0 : Nat) = K.toNat - 1
  · have h2 : data.length = 0 := by omega
    have h3 : data = [] := List.length_eq_zero.1 h2
    simp [chunkSpec, h3]
  · simp [chunkSpec, h1, hcs]

theorem C8_degenerate_split_witness :
    ∃ md, chunkFile [9] "f.txt" 6 "fid" = .ok md ∧
      chunkFileInMemory [9] "fid" 6 = .ok md.Chunks ∧
      md.Chunks.length = (6 : Int).toNat ∧
      (∃ i, ∃ h : i < md.Chunks.length, (md.Chunks.get ⟨i, h⟩).Data = []) ∧
      (md.Chunks.map (fun c => c.Data)).flatten = [9] :=
  C8_degenerate_split [9] "f.txt" "fid" 6 (by decide)

/-- C9: for every input and every K > 0 the disk-based `ChunkFile` and the
coordinator's `chunkFileInMemory` produce identical chunk sequences — the
same ids, indices, file ids, sizes, checksums, and payloads throughout. -/
theorem C9_split_implementations_agree (data : List Nat) (fileName fileID : String)
    (K : Int) (hK : 0 < K) :
    ∃ md chunks, chunkFile data fileName K fileID = .ok md ∧
      chunkFileInMemory data fileID K = .ok chunks ∧ md.Chunks = chunks :=
  ⟨_, _, chunkFile_eq data fileName fileID K hK,
    chunkFileInMemory_eq data fileID K hK, rfl⟩

theorem C9_split_implementations_agree_witness :
    ∃ md chunks, chunkFile [1, 2, 3, 4, 5, 6, 7] "f.txt" 3 "fid" = .ok md ∧
      chunkFileInMemory [1, 2, 3, 4, 5, 6, 7] "fid" 3 = .ok chunks ∧ md.Chunks = chunks :=
  C9_split_implementations_agree [1, 2, 3, 4, 5, 6, 7] "f.txt" "fid" 3 (by decide)

/-- C10: the coordinator's reassembly returns exactly the concatenation of
the chunks' payloads in list order and never fails — it performs no
checksum, size or index verification whatsoever. -/
theorem C10_reconstructFileInMemory_concat (chunks : List FileChunk) :
    reconstructFileInMemory chunks = .ok ((chunks.map (fun c => c.Data)).flatten) := by
  rw [reconstructFileInMemory, foldl_append_data, List.nil_append]

end UpdateCase
